import Mathlib

/-!
# Verification of the sep-scrape concept-discovery pipeline

Shallow embedding of the core of the `sep-scrape` repository:

* `fe_no_spacy.py` — lexical-only pipeline (TF-IDF fingerprints, citation
  communities, synthesis with bridge detection);
* `feature_engineer.py` — NER pipeline (same plus spaCy entity extraction);
* `scrapy_sep/pipelines.py` — crawl-side item pipelines (LaTeX placeholder
  substitution, JSON storage).

Numeric TF-IDF weights are modelled as rationals (`ℚ`); the Python code uses
IEEE doubles, whose comparisons against the thresholds coincide with the exact
rational comparisons for all feasible fingerprint sizes.  External libraries
(sklearn's fitted TF-IDF matrix, spaCy's analysis of a text, python-louvain's
`best_partition`) enter as explicit inputs/parameters; everything the
repository's own code does with them is embedded directly.
-/

/-- An article record as loaded from a processed JSON file (§3 of the spec,
fields used by the feature-engineering code). -/
structure Article where
  url : String
  title : String
  text_with_placeholders : String
  related_entries : List String
deriving Repr, DecidableEq

/-! ## Generic helpers mirroring Python idioms -/

/-- Python list slice `l[-n:]`.  Note the Python quirk: `-0 == 0`, so for
`n = 0` the slice is the whole list, not the empty list. -/
def pySliceLast (n : Nat) (l : List α) : List α :=
  if n = 0 then l else l.drop (l.length - n)

/-- Distinct elements of `l` that are not in `seen`, in first-occurrence
order (the key order of a Python `dict` / `collections.Counter`). -/
def dedupFirstAux [DecidableEq α] (seen : List α) : List α → List α
  | [] => []
  | x :: xs => if x ∈ seen then dedupFirstAux seen xs
               else x :: dedupFirstAux (seen ++ [x]) xs

/-- Distinct elements of `l` in first-occurrence order. -/
def dedupFirst [DecidableEq α] (l : List α) : List α := dedupFirstAux [] l

/-- `m.get(k, d)` on a Python dict modelled as an association list. -/
def lookupD [BEq α] (m : List (α × β)) (k : α) (d : β) : β :=
  ((m.find? (fun p => p.1 == k)).map Prod.snd).getD d

/-- `collections.Counter(l).most_common(n)`, keys only: distinct elements in
first-occurrence order, stably sorted by descending count, first `n` kept.
(`heapq.nlargest` used by `most_common` is documented to agree with a stable
descending sort.) -/
def most_common [DecidableEq α] (n : Nat) (l : List α) : List α :=
  ((((dedupFirst l).map (fun k => (k, l.count k))).insertionSort
      (fun p q => q.2 ≤ p.2)).take n).map (fun p => p.1)

/-! ## Modality 1: TF-IDF fingerprints (`calculate_tfidf_fingerprints`)

The fitted sklearn model is given by its outputs: `feature_names`
(`vectorizer.get_feature_names_out()`) and one dense row of weights per
article.  The repository's own per-row selection logic is embedded exactly,
in its two variants. -/

/-- The index-weight pairs of the nonzero entries of a dense row, in index
order — the `(row.indices, row.data)` of the CSR row in `feature_engineer.py`. -/
def nonzeros (row : List ℚ) : List (Nat × ℚ) :=
  row.enum.filter (fun p => decide (p.2 ≠ 0))

/-- `row.argsort()` (fe_no_spacy.py line 74): a permutation of the index range
sorted by ascending weight.  numpy's tie order among equal weights is
implementation-defined; we realise it as a stable insertion sort, and no
theorem below depends on the tie order. -/
def argsort (row : List ℚ) : List Nat :=
  (List.range row.length).insertionSort
    (fun i j => row.getD i 0 ≤ row.getD j 0)

/-- `fe_no_spacy.py`, lines 73–74: `top_indices = row.argsort()[-top_n:]`. -/
def selectTopNoSpacy (row : List ℚ) (top_n : Nat) : List Nat :=
  pySliceLast top_n (argsort row)

/-- `feature_engineer.py`, lines 64–72: selection on the sparse row.
`np.argpartition(row.data, -top_n)[-top_n:]` keeps the positions of the
`top_n` largest nonzero weights (its internal order is unspecified; we
realise it as ascending by weight, and no theorem depends on that order). -/
def selectTopNER (row : List ℚ) (top_n : Nat) : List Nat :=
  let nz := nonzeros row
  if top_n < nz.length then
    (pySliceLast top_n (nz.insertionSort (fun p q => p.2 ≤ q.2))).map (fun p => p.1)
  else if 0 < nz.length then
    nz.map (fun p => p.1)
  else []

/-- `feature_names[top_indices].tolist()` for the lexical-only variant. -/
def fingerprintNoSpacy (feature_names : List String) (row : List ℚ) (top_n : Nat) :
    List String :=
  (selectTopNoSpacy row top_n).map (fun i => feature_names.getD i "")

/-- `feature_names[...].tolist()` for the NER-pipeline variant. -/
def fingerprintNER (feature_names : List String) (row : List ℚ) (top_n : Nat) :
    List String :=
  (selectTopNER row top_n).map (fun i => feature_names.getD i "")

/-- `calculate_tfidf_fingerprints` of `fe_no_spacy.py` given the fitted model:
the url → keyword-list dict, as an association list in insertion order. -/
def calculate_tfidf_fingerprints_noSpacy (feature_names : List String)
    (urls : List String) (rows : List (List ℚ)) (top_n : Nat) :
    List (String × List String) :=
  (urls.zip rows).map (fun p => (p.1, fingerprintNoSpacy feature_names p.2 top_n))

/-- `calculate_tfidf_fingerprints` of `feature_engineer.py` given the fitted
model. -/
def calculate_tfidf_fingerprints_ner (feature_names : List String)
    (urls : List String) (rows : List (List ℚ)) (top_n : Nat) :
    List (String × List String) :=
  (urls.zip rows).map (fun p => (p.1, fingerprintNER feature_names p.2 top_n))

/-! ## Modality 2: citation graph (`build_citation_communities`)

The graph construction (both files, identical code) is embedded directly;
`community_louvain.best_partition` is an external randomized algorithm and is
passed in as a parameter (a node → community-id labelling, deterministic in a
seed), per the spec's determinism contract in §4.2/§9. -/

/-- The directed citation graph: node list and edge list as built by
`build_citation_communities` (both pipeline files).  All nodes are added
first; then for each article, an edge to each related entry that is a known
node (`if dest_url in G`).  networkx de-duplicates nodes and edges, so
membership below is what matters. -/
structure CitationGraph where
  nodes : List String
  edges : List (String × String)
deriving Repr, DecidableEq

/-- `build_citation_communities`, graph-construction part
(`fe_no_spacy.py` lines 84–93, `feature_engineer.py` lines 81–87). -/
def build_citation_graph (articles : List Article) : CitationGraph :=
  let nodes := articles.map (fun a => a.url)
  { nodes := nodes
    edges := articles.flatMap (fun a =>
      (a.related_entries.filter (fun d => decide (d ∈ nodes))).map
        (fun d => (a.url, d))) }

/-- Grouping the `best_partition` labelling into a list of communities:
`communities.setdefault(community_id, []).append(node)` over a dict keyed by
community id, then `list(communities.values())` — dict keys in first-seen
order, members in node order.  `insertCommunityNode` is the
`setdefault`/`append` step. -/
def insertCommunityNode (acc : List (Nat × List String)) (cid : Nat) (node : String) :
    List (Nat × List String) :=
  match acc with
  | [] => [(cid, [node])]
  | (k, ns) :: rest =>
      if k = cid then (k, ns ++ [node]) :: rest
      else (k, ns) :: insertCommunityNode rest cid node

/-- `build_citation_communities`, grouping part: from the partition labelling
(in node-iteration order) to the list of communities. -/
def group_communities (partition : List (String × Nat)) : List (List String) :=
  (partition.foldl (fun acc p => insertCommunityNode acc p.2 p.1) []).map
    (fun p => p.2)

/-! ## Bridge detection (`find_bridge_articles`) -/

/-- The per-article test inside the `find_bridge_articles` loop (both files):
skip members of the community, skip empty keyword sets (the division-by-zero
guard), else compare `len(intersection) / len(article_keyword_set)` with the
threshold. -/
def bridgeTest (community_urls : Finset String) (core_concepts : Finset String)
    (similarity_threshold : ℚ) (url : String) (keywords : List String) : Bool :=
  if url ∈ community_urls then false
  else
    let article_keyword_set := keywords.toFinset
    if article_keyword_set = ∅ then false
    else
      decide (similarity_threshold ≤
        ((article_keyword_set ∩ core_concepts).card : ℚ) / article_keyword_set.card)

/-- `find_bridge_articles` (`fe_no_spacy.py` lines 104–119,
`feature_engineer.py` lines 127–137): the urls passing `bridgeTest`, in dict
iteration order. -/
def find_bridge_articles (community_urls : Finset String)
    (all_article_keywords : List (String × List String))
    (core_concepts : Finset String) (similarity_threshold : ℚ) : List String :=
  (all_article_keywords.filter
    (fun p => bridgeTest community_urls core_concepts similarity_threshold p.1 p.2)).map
    (fun p => p.1)

/-- The lexical-only pipeline calls `find_bridge_articles` with its default
threshold `0.1`. -/
def find_bridge_articles_noSpacy (community_urls : Finset String)
    (all_article_keywords : List (String × List String))
    (core_concepts : Finset String) : List String :=
  find_bridge_articles community_urls all_article_keywords core_concepts (1 / 10)

/-- The NER pipeline calls `find_bridge_articles` with its default threshold
`0.2`. -/
def find_bridge_articles_ner (community_urls : Finset String)
    (all_article_keywords : List (String × List String))
    (core_concepts : Finset String) : List String :=
  find_bridge_articles community_urls all_article_keywords core_concepts (2 / 10)

/-! ## Synthesis loop of `fe_no_spacy.main` -/

/-- A synthesized cluster record (`fe_no_spacy.py` lines 158–163). -/
structure ClusterRecord where
  cluster_id : String
  core_concepts : List String
  core_articles : List String
  bridge_articles : List String
deriving Repr, DecidableEq

/-- `f"citation_cluster_{i}"`. -/
def mkClusterId (i : Nat) : String := "citation_cluster_" ++ toString i

/-- The keyword multiset of a community:
`(kw for url in community_urls for kw in article_keywords.get(url, []))`. -/
def communityKeywords (article_keywords : List (String × List String))
    (community_urls : List String) : List String :=
  community_urls.flatMap (fun u => lookupD article_keywords u [])

/-- The synthesis loop of `fe_no_spacy.main` (lines 148–164): enumerate the
communities, skip those with fewer than 5 members, and emit one cluster
record per remaining community.  `i` is the running enumeration index. -/
def synthesize_clusters (article_keywords : List (String × List String)) :
    List (List String) → Nat → List ClusterRecord
  | [], _ => []
  | community_urls :: rest, i =>
    if community_urls.length < 5 then
      synthesize_clusters article_keywords rest (i + 1)
    else
      let core_concepts := most_common 15 (communityKeywords article_keywords community_urls)
      { cluster_id := mkClusterId i
        core_concepts := core_concepts
        core_articles := community_urls
        bridge_articles :=
          find_bridge_articles_noSpacy community_urls.toFinset article_keywords
            core_concepts.toFinset } :: synthesize_clusters article_keywords rest (i + 1)

/-- Index-value enumeration starting at `i` (used to state which communities
produce cluster records). -/
def enumIdx (i : Nat) : List α → List (Nat × α)
  | [] => []
  | x :: xs => (i, x) :: enumIdx (i + 1) xs

/-- The post-load lexical-only pipeline (`fe_no_spacy.main` after
`load_all_articles`): fit the TF-IDF model (external, a parameter returning
feature names and one weight row per article), compute fingerprints, build
the citation graph, partition it (external `best_partition`, a parameter
deterministic in a seed), group communities, and synthesize clusters. -/
def run_pipeline_noSpacy
    (tfidf_fit : List Article → List String × List (List ℚ))
    (best_partition : CitationGraph → Nat → List (String × Nat))
    (seed : Nat) (articles : List Article) : List ClusterRecord :=
  let fit := tfidf_fit articles
  let article_keywords :=
    calculate_tfidf_fingerprints_noSpacy fit.1 (articles.map (fun a => a.url)) fit.2 20
  let graph := build_citation_graph articles
  let citation_communities := group_communities (best_partition graph seed)
  synthesize_clusters article_keywords citation_communities 0

/-! ## Modality 4: entity extraction (`extract_entities_and_concepts`)

spaCy itself is external: a loaded model is a function from a text to an
analysed document (entities with labels, noun chunks).  Texts inside
documents are modelled as `List Char` so that case-folding is plain `map`.
`spacy.load` either succeeds (`some nlp`) or raises `OSError` (`none`), which
the function catches, returning the empty mapping. -/

/-- A spaCy entity: its surface text and its label (`ent.label_`). -/
structure SpacyEnt where
  text : List Char
  label : String
deriving Repr, DecidableEq

/-- A spaCy-analysed document: named entities and noun chunks. -/
structure SpacyDoc where
  ents : List SpacyEnt
  noun_chunks : List (List Char)
deriving Repr, DecidableEq

/-- A loaded spaCy language model, applied per text (`nlp.pipe` feeds each
article text through the model; batching/worker fan-out does not change the
per-text result, and results are consumed in input order). -/
def SpacyNLP : Type := String → SpacyDoc

/-- Per-article entity record (`people`, `works`, `concepts`). -/
structure EntityRecord where
  people : List (List Char)
  works : List (List Char)
  concepts : List (List Char)
deriving Repr, DecidableEq

/-- `{}` / `article_entities.get(url, {}).get(field, [])` default. -/
def emptyEntityRecord : EntityRecord := ⟨[], [], []⟩

/-- Python `str.split()` on a `List Char`: maximal runs of non-whitespace
characters, empty runs dropped.  `cur` holds the current run reversed. -/
def wsplitAux (cur : List Char) : List Char → List (List Char)
  | [] => if cur = [] then [] else [cur.reverse]
  | c :: rest =>
      if c.isWhitespace then
        if cur = [] then wsplitAux [] rest else cur.reverse :: wsplitAux [] rest
      else wsplitAux (c :: cur) rest

/-- Python `str.split()` (whitespace tokenisation). -/
def wsplit (l : List Char) : List (List Char) := wsplitAux [] l

/-- The per-document body of the `extract_entities_and_concepts` loop
(`feature_engineer.py` lines 115–117):
`people = list(set(ent.text for ent in doc.ents if ent.label_ == "PERSON"))`,
likewise `works` with `"WORK_OF_ART"`, and
`concepts = list(set(chunk.text.lower() for chunk in doc.noun_chunks if
len(chunk.text.split()) > 1))`.  CPython's `list(set(...))` order is
unspecified; we realise it as first-occurrence order, and no theorem depends
on the order. -/
def analyzeDoc (doc : SpacyDoc) : EntityRecord :=
  { people := dedupFirst ((doc.ents.filter (fun e => e.label == "PERSON")).map
      (fun e => e.text))
    works := dedupFirst ((doc.ents.filter (fun e => e.label == "WORK_OF_ART")).map
      (fun e => e.text))
    concepts := dedupFirst
      ((doc.noun_chunks.filter (fun ch => decide (1 < (wsplit ch).length))).map
        (fun ch => ch.map Char.toLower)) }

/-- `extract_entities_and_concepts` (`feature_engineer.py` lines 95–125):
if `spacy.load` raised `OSError` (`none`), return the empty mapping;
otherwise map each article url to the analysis of its text. -/
def extract_entities_and_concepts (loaded : Option SpacyNLP)
    (articles : List Article) : List (String × EntityRecord) :=
  match loaded with
  | none => []
  | some nlp => articles.map (fun a => (a.url, analyzeDoc (nlp a.text_with_placeholders)))

/-- A synthesized cluster record of the NER pipeline
(`feature_engineer.py` lines 179–186). -/
structure ClusterRecordNer where
  cluster_id : String
  top_keywords_tfidf : List String
  top_concepts_ner : List (List Char)
  key_people : List (List Char)
  core_articles : List String
  bridge_articles : List String
deriving Repr, DecidableEq

/-- The synthesis loop of `feature_engineer.main` (lines 166–187). -/
def synthesize_clusters_ner (article_keywords : List (String × List String))
    (article_entities : List (String × EntityRecord)) :
    List (List String) → Nat → List ClusterRecordNer
  | [], _ => []
  | community_urls :: rest, i =>
    if community_urls.length < 5 then
      synthesize_clusters_ner article_keywords article_entities rest (i + 1)
    else
      let all_keywords := communityKeywords article_keywords community_urls
      let all_people := community_urls.flatMap
        (fun u => (lookupD article_entities u emptyEntityRecord).people)
      let all_concepts := community_urls.flatMap
        (fun u => (lookupD article_entities u emptyEntityRecord).concepts)
      let top_keywords := most_common 15 all_keywords
      { cluster_id := mkClusterId i
        top_keywords_tfidf := top_keywords
        top_concepts_ner := most_common 15 all_concepts
        key_people := most_common 10 all_people
        core_articles := community_urls
        bridge_articles :=
          find_bridge_articles_ner community_urls.toFinset article_keywords
            top_keywords.toFinset } :: synthesize_clusters_ner article_keywords article_entities rest (i + 1)

/-! ## Crawl-side pipelines (`scrapy_sep/pipelines.py`) -/

/-- A segment of an article body as decomposed by the LaTeX regex
`(\\(.*?\\)|\\[.*?\\])`: either plain text between matches or one matched
LaTeX expression.  `re.sub` visits the matches left to right. -/
inductive Seg where
  | text : String → Seg
  | math : String → Seg
deriving Repr, DecidableEq

/-- The mutable state of `LatexProcessingPipeline.process_item`:
`unique_expressions` and `expression_to_id`. -/
structure LatexState where
  unique_expressions : List String
  expression_to_id : List (String × Nat)
deriving Repr, DecidableEq

/-- `latex_replacer` (`pipelines.py` lines 58–72), minus the placeholder
formatting: look the expression up in `expression_to_id`; if absent, assign
`len(unique_expressions)` as its fresh id and record it. -/
def latex_replacer (st : LatexState) (expression : String) : LatexState × Nat :=
  match st.expression_to_id.find? (fun p => p.1 == expression) with
  | some p => (st, p.2)
  | none =>
      let expr_id := st.unique_expressions.length
      ({ unique_expressions := st.unique_expressions ++ [expression]
         expression_to_id := st.expression_to_id ++ [(expression, expr_id)] },
       expr_id)

/-- `f"[MATH_{expr_id}]"`. -/
def placeholder (expr_id : Nat) : String := "[MATH_" ++ toString expr_id ++ "]"

/-- `latex_pattern.sub(latex_replacer, raw_text)`: thread the state through
the segments left to right, replacing each match by its placeholder. -/
def latex_sub (st : LatexState) : List Seg → LatexState × List String
  | [] => (st, [])
  | Seg.text s :: rest =>
      let r := latex_sub st rest
      (r.1, s :: r.2)
  | Seg.math e :: rest =>
      let p := latex_replacer st e
      let r := latex_sub p.1 rest
      (r.1, placeholder p.2 :: r.2)

/-- The matched LaTeX expressions of a body, in match order. -/
def mathMatches (body : List Seg) : List String :=
  body.filterMap (fun s => match s with | Seg.math e => some e | Seg.text _ => none)

/-- `LatexProcessingPipeline.process_item` (`pipelines.py` lines 43–89) on
the regex decomposition of `body_text`: returns
(`text_with_placeholders`, `math_expressions`).  An empty `body_text`
(falsy) short-circuits to `('', [])`. -/
def process_item_latex (body : List Seg) : String × List String :=
  if body = [] then ("", [])
  else
    let r := latex_sub ⟨[], []⟩ body
    (String.join r.2, r.1.unique_expressions)

/-! ### Storage pipeline (`SepStoragePipeline`) -/

/-- The character class `[^a-zA-Z0-9_.-]` kept by `clean_for_filename`:
`true` for characters that are NOT replaced. -/
def isAllowedChar (c : Char) : Bool :=
  decide ('a' ≤ c ∧ c ≤ 'z') || decide ('A' ≤ c ∧ c ≤ 'Z') ||
  decide ('0' ≤ c ∧ c ≤ '9') || c == '_' || c == '.' || c == '-'

/-- `re.sub(r'[^a-zA-Z0-9_.-]+', '_', text)`: each maximal run of disallowed
characters becomes a single `'_'`.  `prevBad` records whether the previous
character was part of such a run. -/
def collapseBad (prevBad : Bool) : List Char → List Char
  | [] => []
  | c :: rest =>
      if isAllowedChar c then c :: collapseBad false rest
      else if prevBad then collapseBad true rest
      else '_' :: collapseBad true rest

/-- Python `str.strip(c)`: drop `c` from both ends. -/
def pyStrip (c : Char) (l : List Char) : List Char :=
  ((l.dropWhile (fun d => d == c)).reverse.dropWhile (fun d => d == c)).reverse

/-- `SepStoragePipeline.clean_for_filename` (`pipelines.py` lines 102–105):
empty (falsy) text gives `"untitled"`; otherwise substitute the disallowed
runs, lower-case, and strip underscores. -/
def clean_for_filename (text : String) : String :=
  if text = "" then "untitled"
  else String.mk (pyStrip '_' ((collapseBad false text.data).map Char.toLower))

/-- The item fields relevant to storage. -/
structure SepItem where
  url : String
  title : String
deriving Repr, DecidableEq

/-- `os.path.join(self.output_dir, f"{base_filename}.json")` with
`output_dir = "processed_articles"`. -/
def output_filepath (title : String) : String :=
  "processed_articles/" ++ clean_for_filename title ++ ".json"

/-- Writing a file: replace the content at an existing path, else append a
new (path, content) entry. -/
def writeFileUpsert (store : List (String × SepItem)) (path : String)
    (item : SepItem) : List (String × SepItem) :=
  match store with
  | [] => [(path, item)]
  | (p, it) :: rest =>
      if p = path then (p, item) :: rest
      else (p, it) :: writeFileUpsert rest path item

/-- `SepStoragePipeline.process_item` (`pipelines.py` lines 107–122) over a
sequence of items: each item is written to the filepath derived from its
title, overwriting whatever was there. -/
def run_storage (items : List SepItem) : List (String × SepItem) :=
  items.foldl (fun store it => writeFileUpsert store (output_filepath it.title) it) []

/-! ## Concrete inputs used by counterexamples and witnesses -/

/-- A spaCy document whose only entity is the person "Kant" (capitalised). -/
def kantDoc : SpacyDoc :=
  { ents := [⟨['K', 'a', 'n', 't'], "PERSON"⟩], noun_chunks := [] }

/-- A loaded model sending every text to `kantDoc`. -/
def kantNLP : SpacyNLP := fun _ => kantDoc

/-- A one-article corpus. -/
def kantArticle : Article := ⟨"u", "t", "", []⟩

/-- A document with a multi-token noun chunk, for witnesses. -/
def chunkDoc : SpacyDoc :=
  { ents := [⟨['K', 'a', 'n', 't'], "PERSON"⟩, ⟨['C', 'r', 'i', 't', 'i', 'q', 'u', 'e'], "WORK_OF_ART"⟩]
    noun_chunks := [['P', 'u', 'r', 'e', ' ', 'R', 'e', 'a', 's', 'o', 'n'], ['a']] }

/-- Item saved first: title "Kant". -/
def kantItem : SepItem := ⟨"https://plato.stanford.edu/entries/kant/", "Kant"⟩

/-- Item saved later: different url, title "KANT" normalising to the same
filename. -/
def kantItem2 : SepItem := ⟨"https://plato.stanford.edu/entries/kant-hume/", "KANT"⟩

/-- A body with a repeated LaTeX expression, for the C8 witness. -/
def demoBody : List Seg :=
  [Seg.math "\\(x\\)", Seg.text " a ", Seg.math "\\(y\\)", Seg.math "\\(x\\)"]

/-- A keyword dict for the C2 witness. -/
def demoKeywords : List (String × List String) :=
  [("a", ["k1", "k2"]), ("b", [])]

/-! ## Helper lemmas -/

theorem pySliceLast_eq_drop {n : Nat} (hn : 0 < n) (l : List α) :
    pySliceLast n l = l.drop (l.length - n) := by
  unfold pySliceLast
  rw [if_neg (Nat.pos_iff_ne_zero.mp hn)]

theorem pySliceLast_length {n : Nat} (hn : 0 < n) (l : List α) :
    (pySliceLast n l).length = min n l.length := by
  rw [pySliceLast_eq_drop hn, List.length_drop]
  omega

theorem pySliceLast_sublist (n : Nat) (l : List α) : (pySliceLast n l).Sublist l := by
  unfold pySliceLast
  split
  · exact List.Sublist.refl l
  · exact List.drop_sublist _ l

/-! ## C5: citation graph nodes and edges -/

/-- C5: `build_citation_communities` adds one node per article and an edge
`source→dest` exactly when `dest` is cited by the source article and is the
url of some article in the corpus; dangling citation links never create
nodes or edges, so the node set is exactly the set of article urls. -/
theorem citation_graph_nodes_and_edges (articles : List Article) :
    (∀ u, u ∈ (build_citation_graph articles).nodes ↔ ∃ a ∈ articles, a.url = u) ∧
    (∀ s d, (s, d) ∈ (build_citation_graph articles).edges ↔
      ∃ a ∈ articles, a.url = s ∧ d ∈ a.related_entries ∧
        ∃ b ∈ articles, b.url = d) := by
  constructor
  · intro u
    simp [build_citation_graph]
  · intro s d
    simp only [build_citation_graph, List.mem_flatMap, List.mem_map,
      List.mem_filter, decide_eq_true_eq]
    constructor
    · rintro ⟨a, ha, d0, ⟨hd0, hknown⟩, heq⟩
      obtain ⟨hs, hd⟩ := Prod.mk.injEq .. ▸ heq
      subst hs; subst hd
      exact ⟨a, ha, rfl, hd0, hknown⟩
    · rintro ⟨a, ha, rfl, hd0, b, hb, hbd⟩
      exact ⟨a, ha, d, ⟨hd0, b, hb, hbd⟩, rfl⟩

/-- Witness for C5 on a concrete two-article corpus with one dangling link. -/
theorem citation_graph_nodes_and_edges_witness :
    ("A", "B") ∈ (build_citation_graph
      [⟨"A", "t", "", ["B", "X"]⟩, ⟨"B", "t", "", []⟩]).edges :=
  ((citation_graph_nodes_and_edges
      [⟨"A", "t", "", ["B", "X"]⟩, ⟨"B", "t", "", []⟩]).2 "A" "B").mpr
    ⟨⟨"A", "t", "", ["B", "X"]⟩, by decide, rfl, by decide,
     ⟨"B", "t", "", []⟩, by decide, rfl⟩

/-! ## C6: only communities with at least five members become clusters -/

/-- C6: the synthesis loop of `fe_no_spacy.main` emits exactly one cluster
record per community with at least 5 members, keyed by the community's
original enumeration index, and no record at all for smaller communities. -/
theorem clusters_only_for_big_communities
    (article_keywords : List (String × List String))
    (comms : List (List String)) (i : Nat) :
    (synthesize_clusters article_keywords comms i).map
        (fun c => (c.cluster_id, c.core_articles)) =
      ((enumIdx i comms).filter (fun p => decide (¬ p.2.length < 5))).map
        (fun p => (mkClusterId p.1, p.2)) := by
  induction comms generalizing i with
  | nil => rfl
  | cons c rest ih =>
    by_cases h : c.length < 5
    · simp [synthesize_clusters, enumIdx, List.filter_cons, h, ih]
    · have h5 : 5 ≤ c.length := Nat.not_lt.mp h
      simp [synthesize_clusters, enumIdx, List.filter_cons, h, h5, ih]

/-- Witness for C6: a 5-member community is emitted, a 1-member one is not. -/
theorem clusters_only_for_big_communities_witness :
    (synthesize_clusters [] [["a", "b", "c", "d", "e"], ["f"]] 0).map
        (fun c => (c.cluster_id, c.core_articles)) =
      [(mkClusterId 0, ["a", "b", "c", "d", "e"])] := by
  rw [clusters_only_for_big_communities]
  decide

/-! ## C9: determinism given the partition seed -/

/-- C9: two runs of the (post-load) lexical pipeline over identical input
with the same community-detection seed produce identical cluster records —
identical cluster ids, core_articles, core_concepts and bridge_articles.
The external `best_partition` is modelled as a function of the graph and the
seed (the spec's determinism contract); everything the repository's own code
adds is deterministic. -/
theorem pipeline_deterministic
    (tfidf_fit : List Article → List String × List (List ℚ))
    (best_partition : CitationGraph → Nat → List (String × Nat))
    (seed₁ seed₂ : Nat) (articles₁ articles₂ : List Article)
    (hseed : seed₁ = seed₂) (harticles : articles₁ = articles₂) :
    run_pipeline_noSpacy tfidf_fit best_partition seed₁ articles₁ =
      run_pipeline_noSpacy tfidf_fit best_partition seed₂ articles₂ := by
  subst hseed harticles
  rfl

/-- Witness for C9 at a concrete input. -/
theorem pipeline_deterministic_witness :
    run_pipeline_noSpacy (fun _ => (["k"], [[1]])) (fun _ _ => [("u", 0)]) 7
        [⟨"u", "t", "k", []⟩] =
      run_pipeline_noSpacy (fun _ => (["k"], [[1]])) (fun _ _ => [("u", 0)]) 7
        [⟨"u", "t", "k", []⟩] :=
  pipeline_deterministic _ _ 7 7 _ _ rfl rfl

/-! ## C10: filename collision loses an article -/

/-- C10: two records with distinct urls whose titles normalise to the same
string under `clean_for_filename` ("Kant" vs "KANT") are written to the same
filepath, so the later record silently overwrites the earlier one and only
one file survives. -/
theorem storage_filename_collision :
    kantItem.url ≠ kantItem2.url ∧
    kantItem.title ≠ kantItem2.title ∧
    output_filepath kantItem.title = output_filepath kantItem2.title ∧
    run_storage [kantItem, kantItem2] =
      [(output_filepath kantItem.title, kantItem2)] := by decide

/-! ## C2: bridge detection -/

/-- C2: `find_bridge_articles` marks `url` as a bridge iff `url` has a
keyword entry, is not in the community, its keyword set is non-empty, and
`|fingerprint ∩ core_concepts| / |fingerprint|` is at least the threshold;
the defaults are `0.1` in the lexical-only pipeline and `0.2` in the NER
pipeline; an article whose fingerprint is empty is never marked a bridge,
the empty set being skipped before the division. -/
theorem bridge_articles_characterization :
    (∀ (comm : Finset String) (all : List (String × List String))
        (core : Finset String) (thr : ℚ) (url : String),
      url ∈ find_bridge_articles comm all core thr ↔
        ∃ kws, (url, kws) ∈ all ∧ url ∉ comm ∧ kws.toFinset ≠ ∅ ∧
          thr ≤ ((kws.toFinset ∩ core).card : ℚ) / kws.toFinset.card) ∧
    (∀ comm all core,
      find_bridge_articles_noSpacy comm all core =
        find_bridge_articles comm all core (1 / 10) ∧
      find_bridge_articles_ner comm all core =
        find_bridge_articles comm all core (2 / 10)) ∧
    (∀ (comm : Finset String) (all : List (String × List String))
        (core : Finset String) (thr : ℚ) (url : String),
      (∀ kws, (url, kws) ∈ all → kws.toFinset = ∅) →
        url ∉ find_bridge_articles comm all core thr) := by
  have hmain : ∀ (comm : Finset String) (all : List (String × List String))
      (core : Finset String) (thr : ℚ) (url : String),
      url ∈ find_bridge_articles comm all core thr ↔
        ∃ kws, (url, kws) ∈ all ∧ url ∉ comm ∧ kws.toFinset ≠ ∅ ∧
          thr ≤ ((kws.toFinset ∩ core).card : ℚ) / kws.toFinset.card := by
    intro comm all core thr url
    unfold find_bridge_articles
    rw [List.mem_map]
    constructor
    · rintro ⟨⟨u, kws⟩, hmem, rfl⟩
      rw [List.mem_filter] at hmem
      obtain ⟨hall, htest⟩ := hmem
      simp only [bridgeTest] at htest
      split_ifs at htest with h1 h2
      rw [decide_eq_true_eq] at htest
      exact ⟨kws, hall, h1, h2, htest⟩
    · rintro ⟨kws, hall, h1, h2, hthr⟩
      refine ⟨(url, kws), List.mem_filter.mpr ⟨hall, ?_⟩, rfl⟩
      simp only [bridgeTest]
      rw [if_neg h1, if_neg h2]
      exact decide_eq_true hthr
  refine ⟨hmain, fun _ _ _ => ⟨rfl, rfl⟩, ?_⟩
  intro comm all core thr url hemp hmem
  obtain ⟨kws, hall, _, hne, _⟩ := (hmain comm all core thr url).mp hmem
  exact hne (hemp kws hall)

/-- Witness for C2 at a concrete input: an article with 50% overlap is a
bridge at threshold 1/2; the article with an empty fingerprint is not. -/
theorem bridge_articles_characterization_witness :
    "a" ∈ find_bridge_articles {"c"} demoKeywords {"k1"} (1 / 2) ∧
    "b" ∉ find_bridge_articles {"c"} demoKeywords {"k1"} (1 / 2) := by
  constructor
  · exact (bridge_articles_characterization.1 {"c"} demoKeywords {"k1"} (1 / 2) "a").mpr
      ⟨["k1", "k2"], by decide, by decide, by decide, by
        rw [show ((["k1", "k2"].toFinset ∩ ({"k1"} : Finset String)).card : ℚ) = 1 from rfl,
          show ((["k1", "k2"].toFinset).card : ℚ) = 2 from rfl]⟩
  · exact bridge_articles_characterization.2.2 {"c"} demoKeywords {"k1"} (1 / 2) "b"
      (by
        intro kws h
        simp only [demoKeywords, List.mem_cons, List.not_mem_nil, or_false] at h
        rcases h with h | h
        · injection h with hb _
          exact absurd hb (by decide)
        · injection h with _ hk
          rw [hk]
          rfl)

/-! ## C7: spaCy load failure degrades to an empty mapping -/

theorem lookupD_nil [BEq α] (k : α) (d : β) : lookupD ([] : List (α × β)) k d = d := rfl

theorem flatMap_fun_nil (l : List α) (f : α → List β) (hf : ∀ x, f x = []) :
    l.flatMap f = [] := by
  induction l with
  | nil => rfl
  | cons x xs ih => simp [hf, ih]

theorem most_common_nil [DecidableEq α] (n : Nat) :
    most_common n ([] : List α) = [] := by
  simp [most_common, dedupFirst, dedupFirstAux]

/-- C7: when the spaCy model fails to load (`OSError`, modelled as `none`),
`extract_entities_and_concepts` returns the empty mapping instead of
raising, and the synthesis loop still emits one cluster record per ≥5-member
community — with empty NER-derived fields — so the pipeline's fingerprint,
community and cluster artifacts are still produced. -/
theorem entity_extraction_fallback (articles : List Article)
    (article_keywords : List (String × List String))
    (comms : List (List String)) (i : Nat) :
    extract_entities_and_concepts none articles = [] ∧
    (synthesize_clusters_ner article_keywords [] comms i).map
        (fun c => (c.cluster_id, c.top_concepts_ner, c.key_people, c.core_articles)) =
      ((enumIdx i comms).filter (fun p => decide (¬ p.2.length < 5))).map
        (fun p => (mkClusterId p.1, ([] : List (List Char)),
          ([] : List (List Char)), p.2)) := by
  refine ⟨rfl, ?_⟩
  induction comms generalizing i with
  | nil => rfl
  | cons c rest ih =>
    by_cases h : c.length < 5
    · simp [synthesize_clusters_ner, enumIdx, List.filter_cons, h, ih]
    · have h5 : 5 ≤ c.length := Nat.not_lt.mp h
      have hpe : c.flatMap
          (fun u => (lookupD ([] : List (String × EntityRecord)) u emptyEntityRecord).people) = [] :=
        flatMap_fun_nil _ _ (fun _ => rfl)
      have hco : c.flatMap
          (fun u => (lookupD ([] : List (String × EntityRecord)) u emptyEntityRecord).concepts) = [] :=
        flatMap_fun_nil _ _ (fun _ => rfl)
      simp [synthesize_clusters_ner, enumIdx, List.filter_cons, h, h5, ih, hpe, hco,
        most_common_nil]

/-- Witness for C7 at a concrete input. -/
theorem entity_extraction_fallback_witness :
    extract_entities_and_concepts none [kantArticle] = [] ∧
    (synthesize_clusters_ner [] [] [["a", "b", "c", "d", "e"]] 0).map
        (fun c => (c.cluster_id, c.top_concepts_ner, c.key_people, c.core_articles)) =
      [(mkClusterId 0, [], [], ["a", "b", "c", "d", "e"])] := by
  refine ⟨(entity_extraction_fallback [kantArticle] [] [] 0).1, ?_⟩
  rw [(entity_extraction_fallback [kantArticle] [] [["a", "b", "c", "d", "e"]] 0).2]
  decide

/-! ## C1/C3: fingerprint selection properties -/

theorem mem_nonzeros {row : List ℚ} {p : Nat × ℚ} (h : p ∈ nonzeros row) :
    row.getD p.1 0 = p.2 ∧ p.2 ≠ 0 ∧ p.1 < row.length := by
  unfold nonzeros at h
  rw [List.mem_filter, decide_eq_true_eq] at h
  obtain ⟨henum, hval⟩ := h
  have hget : row[p.1]? = some p.2 := List.mem_enum_iff_getElem?.mp henum
  obtain ⟨hlt, hval2⟩ := List.getElem?_eq_some.mp hget
  refine ⟨?_, hval, hlt⟩
  rw [List.getD_eq_getElem _ _ hlt, hval2]

theorem argsort_length (row : List ℚ) : (argsort row).length = row.length := by
  rw [argsort, List.length_insertionSort, List.length_range]

theorem argsort_sorted (row : List ℚ) :
    (argsort row).Sorted (fun i j => row.getD i 0 ≤ row.getD j 0) := by
  haveI : IsTotal Nat (fun i j => row.getD i 0 ≤ row.getD j 0) :=
    ⟨fun a b => le_total _ _⟩
  haveI : IsTrans Nat (fun i j => row.getD i 0 ≤ row.getD j 0) :=
    ⟨fun a b c hab hbc => le_trans hab hbc⟩
  exact List.sorted_insertionSort _ _

theorem sorted_nz_pairs (row : List ℚ) :
    ((nonzeros row).insertionSort (fun p q => p.2 ≤ q.2)).Sorted
      (fun p q : Nat × ℚ => p.2 ≤ q.2) := by
  haveI : IsTotal (Nat × ℚ) (fun p q : Nat × ℚ => p.2 ≤ q.2) :=
    ⟨fun a b => le_total a.2 b.2⟩
  haveI : IsTrans (Nat × ℚ) (fun p q : Nat × ℚ => p.2 ≤ q.2) :=
    ⟨fun a b c hab hbc => le_trans hab hbc⟩
  exact List.sorted_insertionSort _ _

theorem take_drop_rel {l : List (Nat × ℚ)}
    (hs : l.Sorted (fun p q : Nat × ℚ => p.2 ≤ q.2)) (k : Nat) :
    ∀ p ∈ l.take k, ∀ q ∈ l.drop k, p.2 ≤ q.2 := by
  have h := List.take_append_drop k l
  rw [← h] at hs
  exact (List.pairwise_append.mp hs).2.2

theorem selectTopNER_subset {row : List ℚ} {top_n i : Nat}
    (h : i ∈ selectTopNER row top_n) : ∃ p ∈ nonzeros row, p.1 = i := by
  simp only [selectTopNER] at h
  split_ifs at h with h1 h2
  · rw [List.mem_map] at h
    obtain ⟨p, hp, rfl⟩ := h
    have hps : p ∈ (nonzeros row).insertionSort (fun p q => p.2 ≤ q.2) :=
      (pySliceLast_sublist _ _).subset hp
    exact ⟨p, (List.perm_insertionSort _ _).mem_iff.mp hps, rfl⟩
  · rw [List.mem_map] at h
    obtain ⟨p, hp, rfl⟩ := h
    exact ⟨p, hp, rfl⟩
  · simp at h

theorem selectTopNER_length {row : List ℚ} {top_n : Nat} (htop : 0 < top_n) :
    (selectTopNER row top_n).length = min top_n (nonzeros row).length := by
  simp only [selectTopNER]
  split_ifs with h1 h2
  · rw [List.length_map, pySliceLast_length htop, List.length_insertionSort]
  · rw [List.length_map]
    omega
  · rw [List.length_nil]
    omega

theorem selectTopNER_dominates {row : List ℚ} {top_n : Nat} (htop : 0 < top_n) :
    ∀ i ∈ selectTopNER row top_n, ∀ q ∈ nonzeros row,
      q.1 ∉ selectTopNER row top_n → q.2 ≤ row.getD i 0 := by
  intro i hi q hq hqn
  by_cases h1 : top_n < (nonzeros row).length
  · have hsel : selectTopNER row top_n =
        (pySliceLast top_n ((nonzeros row).insertionSort
          (fun p q => p.2 ≤ q.2))).map (fun p => p.1) := by
      simp only [selectTopNER, if_pos h1]
    rw [hsel, List.mem_map] at hi
    obtain ⟨pi, hpi, rfl⟩ := hi
    rw [pySliceLast_eq_drop htop] at hpi
    have hqs : q ∈ (nonzeros row).insertionSort (fun p q => p.2 ≤ q.2) :=
      (List.perm_insertionSort _ _).mem_iff.mpr hq
    have hsplit : q ∈ ((nonzeros row).insertionSort (fun p q => p.2 ≤ q.2)).take
        (((nonzeros row).insertionSort (fun p q => p.2 ≤ q.2)).length - top_n) ∨
        q ∈ ((nonzeros row).insertionSort (fun p q => p.2 ≤ q.2)).drop
        (((nonzeros row).insertionSort (fun p q => p.2 ≤ q.2)).length - top_n) := by
      rw [← List.mem_append, List.take_append_drop]
      exact hqs
    rcases hsplit with hqt | hqd
    · have hle : q.2 ≤ pi.2 := take_drop_rel (sorted_nz_pairs row) _ q hqt pi hpi
      have hpi_nz : pi ∈ nonzeros row :=
        (List.perm_insertionSort _ _).mem_iff.mp (List.drop_subset _ _ hpi)
      rw [(mem_nonzeros hpi_nz).1]
      exact hle
    · refine absurd ?_ hqn
      rw [hsel, pySliceLast_eq_drop htop]
      exact List.mem_map_of_mem _ hqd
  · by_cases h2 : 0 < (nonzeros row).length
    · have hsel : selectTopNER row top_n = (nonzeros row).map (fun p => p.1) := by
        simp only [selectTopNER, if_neg h1, if_pos h2]
      refine absurd ?_ hqn
      rw [hsel]
      exact List.mem_map_of_mem _ hq
    · have hnil : nonzeros row = [] := List.length_eq_zero.mp (by omega)
      rw [hnil] at hq
      exact absurd hq (List.not_mem_nil q)

/-- C1 (as amended): the NER pipeline's `calculate_tfidf_fingerprints`
selection returns exactly `min(top_n, #nonzero)` keywords — all drawn from
the fitted vocabulary, all with nonzero weight, dominating every unselected
nonzero weight, and empty when the article has no nonzero term — while the
lexical-only variant always returns `min(top_n, vocabulary-size)` keywords
regardless of how many are nonzero. -/
theorem tfidf_fingerprint_top_terms (feature_names : List String) (row : List ℚ)
    (top_n : Nat) (hrow : row.length = feature_names.length) (htop : 0 < top_n) :
    (fingerprintNER feature_names row top_n).length = min top_n (nonzeros row).length ∧
    (∀ kw ∈ fingerprintNER feature_names row top_n, kw ∈ feature_names) ∧
    (nonzeros row = [] → fingerprintNER feature_names row top_n = []) ∧
    (∀ i ∈ selectTopNER row top_n, row.getD i 0 ≠ 0) ∧
    (∀ i ∈ selectTopNER row top_n, ∀ q ∈ nonzeros row,
        q.1 ∉ selectTopNER row top_n → q.2 ≤ row.getD i 0) ∧
    (selectTopNoSpacy row top_n).length = min top_n row.length := by
  refine ⟨?_, ?_, ?_, ?_, selectTopNER_dominates htop, ?_⟩
  · rw [fingerprintNER, List.length_map, selectTopNER_length htop]
  · intro kw hkw
    rw [fingerprintNER, List.mem_map] at hkw
    obtain ⟨i, hi, rfl⟩ := hkw
    obtain ⟨p, hp, rfl⟩ := selectTopNER_subset hi
    have hlt : p.1 < feature_names.length := hrow ▸ (mem_nonzeros hp).2.2
    rw [List.getD_eq_getElem _ _ hlt]
    exact List.getElem_mem hlt
  · intro hnz
    have hse : selectTopNER row top_n = [] := by
      simp [selectTopNER, hnz]
    rw [fingerprintNER, hse]
    rfl
  · intro i hi
    obtain ⟨p, hp, rfl⟩ := selectTopNER_subset hi
    rw [(mem_nonzeros hp).1]
    exact (mem_nonzeros hp).2.1
  · rw [selectTopNoSpacy, pySliceLast_length htop, argsort_length]

/-- Witness for C1 (amended) at a concrete input. -/
theorem tfidf_fingerprint_top_terms_witness :
    (fingerprintNER ["a1", "b1", "c1", "d1"] [3, 0, 1, 2] 2).length =
      min 2 (nonzeros [3, 0, 1, 2]).length :=
  (tfidf_fingerprint_top_terms ["a1", "b1", "c1", "d1"] [3, 0, 1, 2] 2 rfl
    (by decide)).1

/-- C1 counterexample: in `fe_no_spacy.py`, an article with NO nonzero terms
still receives `min(top_n, vocabulary-size)` zero-weight keywords from
`row.argsort()[-top_n:]` — not the empty list the claim requires. -/
theorem tfidf_fingerprint_zero_row_cex :
    calculate_tfidf_fingerprints_noSpacy ["alpha", "beta", "gamma"] ["u"]
        [[0, 0, 0]] 20 =
      [("u", ["alpha", "beta", "gamma"])] ∧
    nonzeros [0, 0, 0] = [] ∧
    (["alpha", "beta", "gamma"] : List String) ≠ [] := by decide

/-- C3 (as amended): in the lexical-only pipeline the fingerprint's weights
are in ASCENDING (non-decreasing) order along the keyword list — the last
element, not the first, carries the highest weight. -/
theorem fingerprint_weights_ascending (row : List ℚ) (top_n : Nat) :
    ((selectTopNoSpacy row top_n).map (fun i => row.getD i 0)).Sorted (· ≤ ·) := by
  have h1 : (selectTopNoSpacy row top_n).Pairwise
      (fun i j => row.getD i 0 ≤ row.getD j 0) :=
    List.Pairwise.sublist (pySliceLast_sublist top_n (argsort row)) (argsort_sorted row)
  exact List.pairwise_map.mpr h1

/-- Witness for C3 (amended) at a concrete input. -/
theorem fingerprint_weights_ascending_witness :
    ((selectTopNoSpacy [3, 1, 2] 2).map
      (fun i => ([3, 1, 2] : List ℚ).getD i 0)).Sorted (· ≤ ·) :=
  fingerprint_weights_ascending [3, 1, 2] 2

/-- C3 counterexample: for the row `[3, 1, 2]` with `top_n = 2`, the
fingerprint is `["gamma", "alpha"]` with weights `[2, 3]`: the FIRST element
has the LOWER weight, refuting "ordered by descending TF-IDF weight". -/
theorem fingerprint_descending_cex :
    fingerprintNoSpacy ["alpha", "beta", "gamma"] [3, 1, 2] 2 = ["gamma", "alpha"] ∧
    ((selectTopNoSpacy [3, 1, 2] 2).map
        (fun i => ([3, 1, 2] : List ℚ).getD i 0)).getD 0 0 <
      ((selectTopNoSpacy [3, 1, 2] 2).map
        (fun i => ([3, 1, 2] : List ℚ).getD i 0)).getD 1 0 := by decide

/-! ## C4: entity extraction output shape -/

theorem dedupFirstAux_subset [DecidableEq α] (seen : List α) (l : List α) :
    ∀ x ∈ dedupFirstAux seen l, x ∈ l := by
  induction l generalizing seen with
  | nil => intro x hx; exact absurd hx (List.not_mem_nil x)
  | cons y ys ih =>
    intro x hx
    simp only [dedupFirstAux] at hx
    split_ifs at hx with hy
    · exact List.mem_cons_of_mem y (ih seen x hx)
    · rcases List.mem_cons.mp hx with rfl | hx2
      · exact List.mem_cons_self x ys
      · exact List.mem_cons_of_mem y (ih _ x hx2)

theorem dedupFirstAux_disjoint [DecidableEq α] (seen : List α) (l : List α) :
    ∀ x ∈ dedupFirstAux seen l, x ∉ seen := by
  induction l generalizing seen with
  | nil => intro x hx; exact absurd hx (List.not_mem_nil x)
  | cons y ys ih =>
    intro x hx
    simp only [dedupFirstAux] at hx
    split_ifs at hx with hy
    · exact ih seen x hx
    · rcases List.mem_cons.mp hx with rfl | hx2
      · exact hy
      · intro hseen
        exact ih (seen ++ [y]) x hx2 (List.mem_append_left _ hseen)

theorem dedupFirstAux_nodup [DecidableEq α] (seen : List α) (l : List α) :
    (dedupFirstAux seen l).Nodup := by
  induction l generalizing seen with
  | nil => exact List.nodup_nil
  | cons y ys ih =>
    simp only [dedupFirstAux]
    split_ifs with hy
    · exact ih seen
    · rw [List.nodup_cons]
      refine ⟨fun hmem => ?_, ih (seen ++ [y])⟩
      exact dedupFirstAux_disjoint _ _ y hmem
        (List.mem_append_right _ (List.mem_singleton.mpr rfl))

/-- C4 (as amended): each of the three per-article collections is
deduplicated; `people` and `works` keep the entity's original casing (they
are NOT case-folded); each `concepts` entry is the lower-casing of a noun
chunk that has at least 2 whitespace-separated tokens. -/
theorem entity_record_shape (doc : SpacyDoc) :
    (analyzeDoc doc).people.Nodup ∧ (analyzeDoc doc).works.Nodup ∧
    (analyzeDoc doc).concepts.Nodup ∧
    (∀ p ∈ (analyzeDoc doc).people, ∃ e ∈ doc.ents, e.label = "PERSON" ∧ p = e.text) ∧
    (∀ w ∈ (analyzeDoc doc).works, ∃ e ∈ doc.ents, e.label = "WORK_OF_ART" ∧ w = e.text) ∧
    (∀ c ∈ (analyzeDoc doc).concepts, ∃ ch ∈ doc.noun_chunks,
        1 < (wsplit ch).length ∧ c = ch.map Char.toLower) := by
  refine ⟨dedupFirstAux_nodup _ _, dedupFirstAux_nodup _ _, dedupFirstAux_nodup _ _,
    ?_, ?_, ?_⟩
  · intro p hp
    have hp2 := dedupFirstAux_subset _ _ p hp
    rw [List.mem_map] at hp2
    obtain ⟨e, he, rfl⟩ := hp2
    rw [List.mem_filter] at he
    exact ⟨e, he.1, by simpa using he.2, rfl⟩
  · intro w hw
    have hw2 := dedupFirstAux_subset _ _ w hw
    rw [List.mem_map] at hw2
    obtain ⟨e, he, rfl⟩ := hw2
    rw [List.mem_filter] at he
    exact ⟨e, he.1, by simpa using he.2, rfl⟩
  · intro c hc
    have hc2 := dedupFirstAux_subset _ _ c hc
    rw [List.mem_map] at hc2
    obtain ⟨ch, hch, rfl⟩ := hc2
    rw [List.mem_filter, decide_eq_true_eq] at hch
    exact ⟨ch, hch.1, hch.2, rfl⟩

/-- Witness for C4 (amended): the concept extracted from `chunkDoc` is the
lower-casing of its ≥2-token noun chunk. -/
theorem entity_record_shape_witness :
    ∃ ch ∈ chunkDoc.noun_chunks, 1 < (wsplit ch).length ∧
      ['p', 'u', 'r', 'e', ' ', 'r', 'e', 'a', 's', 'o', 'n'] = ch.map Char.toLower :=
  (entity_record_shape chunkDoc).2.2.2.2.2
    ['p', 'u', 'r', 'e', ' ', 'r', 'e', 'a', 's', 'o', 'n'] (by decide)

/-- C4 counterexample: a PERSON entity keeps its original casing — "Kant"
appears in `people` un-lower-cased, refuting "all entries lower-cased" for
the people collection. -/
theorem entity_record_not_casefolded_cex :
    extract_entities_and_concepts (some kantNLP) [kantArticle] =
      [("u", { people := [['K', 'a', 'n', 't']], works := [], concepts := [] })] ∧
    ['K', 'a', 'n', 't'].map Char.toLower ≠ ['K', 'a', 'n', 't'] := by decide

/-! ## C8: LaTeX placeholder ids -/

/-- Well-formedness of the LaTeX deduplication state: `expression_to_id`
associates each recorded expression with its position in
`unique_expressions`, which has no duplicates. -/
def latexWF (st : LatexState) : Prop :=
  st.expression_to_id = st.unique_expressions.enum.map (fun p => (p.2, p.1)) ∧
  st.unique_expressions.Nodup

theorem find_exprToId (l : List String) (e : String) (n : Nat) :
    ((l.enumFrom n).map (fun p => (p.2, p.1))).find? (fun p => p.1 == e) =
      if e ∈ l then some (e, n + l.indexOf e) else none := by
  induction l generalizing n with
  | nil => simp
  | cons x xs ih =>
    simp only [List.enumFrom, List.map_cons, List.find?_cons]
    by_cases hx : x = e
    · subst hx
      simp [List.indexOf_cons_self]
    · have hbeq : (x == e) = false := beq_eq_false_iff_ne.mpr hx
      simp only [hbeq]
      rw [ih (n + 1)]
      by_cases he : e ∈ xs
      · rw [if_pos he, if_pos (List.mem_cons_of_mem x he),
          List.indexOf_cons_ne _ (fun h => hx h)]
        have : n + 1 + List.indexOf e xs = n + (List.indexOf e xs).succ := by omega
        rw [this]
      · rw [if_neg he, if_neg (fun hmem => ?_)]
        rcases List.mem_cons.mp hmem with h | h
        · exact hx h.symm
        · exact he h

theorem find_exprToId_enum (l : List String) (e : String) :
    (l.enum.map (fun p => (p.2, p.1))).find? (fun p => p.1 == e) =
      if e ∈ l then some (e, l.indexOf e) else none := by
  have h := find_exprToId l e 0
  rw [show l.enum = l.enumFrom 0 from rfl, h]
  simp

theorem enumFrom_append_singleton (l : List α) (x : α) (n : Nat) :
    (l ++ [x]).enumFrom n = l.enumFrom n ++ [(n + l.length, x)] := by
  induction l generalizing n with
  | nil => simp [List.enumFrom]
  | cons y ys ih =>
    show (n, y) :: ((ys ++ [x]).enumFrom (n + 1)) =
      (n, y) :: ys.enumFrom (n + 1) ++ [(n + (y :: ys).length, x)]
    rw [ih (n + 1), List.length_cons]
    have harith : n + 1 + ys.length = n + (ys.length + 1) := by omega
    rw [harith, List.cons_append]

theorem latex_replacer_spec {st : LatexState} (h : latexWF st) (e : String) :
    latexWF (latex_replacer st e).1 ∧
    (latex_replacer st e).1.unique_expressions =
      (if e ∈ st.unique_expressions then st.unique_expressions
       else st.unique_expressions ++ [e]) ∧
    e ∈ (latex_replacer st e).1.unique_expressions ∧
    (latex_replacer st e).2 =
      (latex_replacer st e).1.unique_expressions.indexOf e := by
  obtain ⟨hassoc, hnodup⟩ := h
  by_cases he : e ∈ st.unique_expressions
  · have hfind : st.expression_to_id.find? (fun p => p.1 == e) =
        some (e, st.unique_expressions.indexOf e) := by
      rw [hassoc, find_exprToId_enum, if_pos he]
    simp only [latex_replacer, hfind]
    exact ⟨⟨hassoc, hnodup⟩, (if_pos he).symm, he, trivial⟩
  · have hfind : st.expression_to_id.find? (fun p => p.1 == e) = none := by
      rw [hassoc, find_exprToId_enum, if_neg he]
    simp only [latex_replacer, hfind]
    refine ⟨⟨?_, ?_⟩, (if_neg he).symm, List.mem_append_right _ (List.mem_singleton.mpr rfl), ?_⟩
    · rw [hassoc, show (st.unique_expressions ++ [e]).enum =
          (st.unique_expressions ++ [e]).enumFrom 0 from rfl,
        enumFrom_append_singleton, List.map_append,
        show st.unique_expressions.enumFrom 0 = st.unique_expressions.enum from rfl]
      simp
    · rw [List.nodup_append]
      exact ⟨hnodup, List.nodup_singleton e,
        fun a ha hb => he (List.mem_singleton.mp hb ▸ ha)⟩
    · rw [List.indexOf_append_of_not_mem he, List.indexOf_cons_self]
      omega

theorem latex_sub_spec (body : List Seg) : ∀ st : LatexState, latexWF st →
    latexWF (latex_sub st body).1 ∧
    (latex_sub st body).1.unique_expressions =
      st.unique_expressions ++ dedupFirstAux st.unique_expressions (mathMatches body) ∧
    (∀ e ∈ mathMatches body, e ∈ (latex_sub st body).1.unique_expressions) ∧
    (latex_sub st body).2 = body.map (fun s => match s with
      | Seg.text t => t
      | Seg.math e =>
          placeholder ((latex_sub st body).1.unique_expressions.indexOf e)) := by
  induction body with
  | nil =>
    intro st h
    refine ⟨h, by simp [latex_sub, mathMatches, dedupFirstAux], ?_, rfl⟩
    intro e he
    simp [mathMatches] at he
  | cons s rest ih =>
    intro st h
    cases s with
    | text t =>
      obtain ⟨h1, h2, h3, h4⟩ := ih st h
      have hmm : mathMatches (Seg.text t :: rest) = mathMatches rest := rfl
      have hst : (latex_sub st (Seg.text t :: rest)).1 = (latex_sub st rest).1 := rfl
      refine ⟨hst ▸ h1, ?_, ?_, ?_⟩
      · rw [hst, hmm]
        exact h2
      · rw [hmm, hst]
        exact h3
      · show t :: (latex_sub st rest).2 = _
        rw [List.map_cons, h4, hst]
    | math e =>
      obtain ⟨hwf1, huniq, hmem, hid⟩ := latex_replacer_spec h e
      obtain ⟨h1, h2, h3, h4⟩ := ih (latex_replacer st e).1 hwf1
      have hmm : mathMatches (Seg.math e :: rest) = e :: mathMatches rest := rfl
      have hst : (latex_sub st (Seg.math e :: rest)).1 =
          (latex_sub (latex_replacer st e).1 rest).1 := rfl
      have hfin : (latex_sub st (Seg.math e :: rest)).1.unique_expressions =
          st.unique_expressions ++
            dedupFirstAux st.unique_expressions (mathMatches (Seg.math e :: rest)) := by
        rw [hst, h2, hmm]
        by_cases he : e ∈ st.unique_expressions
        · rw [huniq, if_pos he]
          simp [dedupFirstAux, he]
        · rw [huniq, if_neg he]
          simp [dedupFirstAux, he]
      have hemem : e ∈ (latex_sub st (Seg.math e :: rest)).1.unique_expressions := by
        rw [hst, h2]
        exact List.mem_append_left _ hmem
      refine ⟨hst ▸ h1, hfin, ?_, ?_⟩
      · rw [hmm]
        intro x hx
        rcases List.mem_cons.mp hx with rfl | hx2
        · exact hemem
        · rw [hst]
          exact h3 x hx2
      · show placeholder (latex_replacer st e).2 ::
            (latex_sub (latex_replacer st e).1 rest).2 =
          (Seg.math e :: rest).map (fun s => match s with
            | Seg.text t => t
            | Seg.math e2 => placeholder
                ((latex_sub st (Seg.math e :: rest)).1.unique_expressions.indexOf e2))
        rw [hst, List.map_cons]
        have hhead : placeholder (latex_replacer st e).2 = placeholder
            ((latex_sub (latex_replacer st e).1 rest).1.unique_expressions.indexOf e) := by
          rw [hid, h2, List.indexOf_append_of_mem hmem]
        rw [hhead, h4]

theorem getD_mem_of_lt {l : List α} {k : Nat} (hk : k < l.length) (d : α) :
    l.getD k d ∈ l := by
  rw [List.getD_eq_getElem _ _ hk]
  exact List.getElem_mem hk

theorem indexOf_getD_of_nodup [DecidableEq α] (l : List α) (hn : l.Nodup)
    (d : α) : ∀ k, k < l.length → l.indexOf (l.getD k d) = k := by
  induction l with
  | nil => intro k hk; simp at hk
  | cons x xs ih =>
    intro k hk
    cases k with
    | zero => simp [List.indexOf_cons_self]
    | succ k =>
      rw [List.nodup_cons] at hn
      have hk2 : k < xs.length := by simpa using hk
      have hmem : xs.getD k d ∈ xs := getD_mem_of_lt hk2 d
      have hne : x ≠ xs.getD k d := fun hcontra => hn.1 (hcontra ▸ hmem)
      show List.indexOf (xs.getD k d) (x :: xs) = k + 1
      rw [List.indexOf_cons_ne _ hne, ih hn.2 k hk2]

/-- C8: in `LatexProcessingPipeline.process_item`, the recorded
`math_expressions` are exactly the distinct matched expressions in
first-occurrence order; every occurrence of an expression is replaced by the
placeholder of its id (its index in that list), so equal expressions share
one id, distinct expressions get distinct ids, and the k-th distinct
expression gets id k (consecutive from 0). -/
theorem latex_placeholder_ids (body : List Seg) (hbody : body ≠ []) :
    (process_item_latex body).2 = dedupFirst (mathMatches body) ∧
    (process_item_latex body).2.Nodup ∧
    (process_item_latex body).1 = String.join (body.map (fun s => match s with
      | Seg.text t => t
      | Seg.math e => placeholder ((dedupFirst (mathMatches body)).indexOf e))) ∧
    (∀ e₁ ∈ mathMatches body, ∀ e₂ ∈ mathMatches body, e₁ ≠ e₂ →
      (dedupFirst (mathMatches body)).indexOf e₁ ≠
        (dedupFirst (mathMatches body)).indexOf e₂) ∧
    (∀ k, k < (process_item_latex body).2.length →
      (process_item_latex body).2.indexOf ((process_item_latex body).2.getD k "") = k) := by
  have hwf0 : latexWF ⟨[], []⟩ := ⟨rfl, List.nodup_nil⟩
  obtain ⟨h1, h2, h3, h4⟩ := latex_sub_spec body ⟨[], []⟩ hwf0
  have huniq : (latex_sub ⟨[], []⟩ body).1.unique_expressions =
      dedupFirst (mathMatches body) := by
    rw [h2]
    rfl
  have hpi2 : (process_item_latex body).2 = dedupFirst (mathMatches body) := by
    simp only [process_item_latex, if_neg hbody]
    exact huniq
  have hpi1 : (process_item_latex body).1 = String.join (latex_sub ⟨[], []⟩ body).2 := by
    simp only [process_item_latex, if_neg hbody]
  refine ⟨hpi2, hpi2 ▸ (huniq ▸ h1.2), ?_, ?_, ?_⟩
  · rw [hpi1, h4, huniq]
  · intro e₁ he₁ e₂ he₂ hne
    have hm₁ : e₁ ∈ dedupFirst (mathMatches body) := huniq ▸ h3 e₁ he₁
    have hm₂ : e₂ ∈ dedupFirst (mathMatches body) := huniq ▸ h3 e₂ he₂
    exact fun hcontra => hne ((List.indexOf_inj hm₁ hm₂).mp hcontra)
  · rw [hpi2]
    exact indexOf_getD_of_nodup _ (huniq ▸ h1.2) ""

/-- Witness for C8 on `demoBody` (a repeated expression). -/
theorem latex_placeholder_ids_witness :
    (process_item_latex demoBody).2 = dedupFirst (mathMatches demoBody) :=
  (latex_placeholder_ids demoBody (by decide)).1
